import Mathlib

/-!
# Verification of the sparse symmetric Cholesky factorization core of cvxpy

The repository ships the test suite `cvxpy/tests/test_linalg_utils.py` for the
routine `cvxpy.utilities.linalg.sparse_cholesky`; the routine itself (a
floating-point numerical kernel) is not among the shipped source files, so the
factorization core below is modelled from the specification, over the real
numbers (the exact-arithmetic idealisation of the floating-point code; exact
equality of matrices subsumes every "to numerical tolerance" clause).
-/

namespace CvxpyLinalg

open Matrix

/-- Modelled from the spec: the error signal.  Both failure kinds of
`sparse_cholesky` are surfaced as the same exception type (`ValueError` in the
source), carrying a message string; callers distinguish the kinds only by
comparing the message against the constants of `SparseCholeskyMessages`
(spec section 9, "Error-as-message-string"). -/
structure ValueError where
  message : String
deriving DecidableEq

namespace SparseCholeskyMessages

/-- Modelled from the spec: the message constant for the singular-matrix
failure (spec section 7); the source constant is `SparseCholeskyMessages.EIGEN_FAIL`. -/
def EIGEN_FAIL : String :=
  "Cholesky failed; an eigenvalue of the matrix is numerically zero."

/-- Modelled from the spec: the message constant for the indefinite-matrix
failure (spec section 7); the source constant is `SparseCholeskyMessages.INDEFINITE`. -/
def INDEFINITE : String :=
  "Cholesky failed; the matrix has a strictly negative eigenvalue."

end SparseCholeskyMessages

/-- The symmetry invariant of the input matrix (spec section 3). -/
def IsSymmMat (n : ℕ) (A : Matrix (Fin n) (Fin n) ℝ) : Prop :=
  ∀ i j, A i j = A j i

/-- The quadratic form `xᵀ A x` of a matrix, written as an explicit double sum. -/
noncomputable def quadForm (n : ℕ) (A : Matrix (Fin n) (Fin n) ℝ) (x : Fin n → ℝ) : ℝ :=
  ∑ i, ∑ j, x i * A i j * x j

/-- Positive semi-definiteness: symmetric with all eigenvalues nonnegative,
equivalently a nonnegative quadratic form (spec glossary). -/
def PosSemidefMat (n : ℕ) (A : Matrix (Fin n) (Fin n) ℝ) : Prop :=
  IsSymmMat n A ∧ ∀ x, 0 ≤ quadForm n A x

/-- Positive definiteness: symmetric with a positive quadratic form away
from zero (equivalently, all eigenvalues strictly positive). -/
def PosDefMat (n : ℕ) (A : Matrix (Fin n) (Fin n) ℝ) : Prop :=
  IsSymmMat n A ∧ ∀ x, x ≠ 0 → 0 < quadForm n A x

/-- Lower-triangularity: every entry strictly above the diagonal is zero
(test `check_factor`, spec section 8 property 2). -/
def LowerTri (n : ℕ) (L : Matrix (Fin n) (Fin n) ℝ) : Prop :=
  ∀ i j : Fin n, i < j → L i j = 0

/-- Strict positivity of the diagonal of the factor
(test `check_factor`, spec section 8 property 2). -/
def PosDiag (n : ℕ) (L : Matrix (Fin n) (Fin n) ℝ) : Prop :=
  ∀ i, 0 < L i i

/-- Modelled from the spec: step 2 of the factorizer algorithm (spec
section 4.2): if `eps > 0`, form `A + eps·I`; with `eps = 0` this is `A`. -/
noncomputable def regularize (n : ℕ) (eps : ℝ) (A : Matrix (Fin n) (Fin n) ℝ) :
    Matrix (Fin n) (Fin n) ℝ :=
  A + eps • (1 : Matrix (Fin n) (Fin n) ℝ)

/-- The sparsity pattern of a matrix: the set of index pairs holding a
structural nonzero (spec section 4.1, the Orderer's input). -/
def pattern (n : ℕ) (A : Matrix (Fin n) (Fin n) ℝ) : Fin n → Fin n → Prop :=
  fun i j => A i j ≠ 0

/-- Modelled from the spec: the Orderer (spec section 4.1).  The heuristic is
an implementation choice; the contract only demands a valid bijection on
`{0, …, n-1}`, "including the identity permutation as a trivial fallback",
which is the fallback this model takes.  It never fails: it is a total
function into `Equiv.Perm (Fin n)`. -/
def orderer (n : ℕ) (_pat : Fin n → Fin n → Prop) : Equiv.Perm (Fin n) :=
  Equiv.refl (Fin n)

/-- Modelled from the spec: step 3 of the factorizer algorithm (spec
section 4.2): apply the permutation symmetrically to rows and columns.  The
convention matches the tests: the returned permutation `p` recovers the
original matrix through `L[p, :] @ L[p, :]ᵀ`. -/
noncomputable def permuteSym (n : ℕ) (p : Equiv.Perm (Fin n))
    (A : Matrix (Fin n) (Fin n) ℝ) : Matrix (Fin n) (Fin n) ℝ :=
  fun i j => A (p.symm i) (p.symm j)

/-- Row selection `L[p, :]` in the sense of the numpy tests:
row `i` of the result is row `p i` of `L`. -/
noncomputable def rowPerm (n : ℕ) (p : Equiv.Perm (Fin n))
    (L : Matrix (Fin n) (Fin n) ℝ) : Matrix (Fin n) (Fin n) ℝ :=
  fun i j => L (p i) j

/-- The Schur complement of the leading pivot: the `n × n` matrix processed
by the next step of the factorization (spec section 4.2 step 4, "computing
each pivot from previously computed factor entries"). -/
noncomputable def schur (n : ℕ) (A : Matrix (Fin (n + 1)) (Fin (n + 1)) ℝ) :
    Matrix (Fin n) (Fin n) ℝ :=
  fun i j => A i.succ j.succ - A i.succ 0 * A j.succ 0 / A 0 0

/-- Assembling the triangular factor from a pivot column and the factor of
the Schur complement (spec section 4.2 step 6): first row `(√a, 0, …, 0)`,
first column below the pivot `A i 0 / √a`, and the recursive factor in the
trailing block. -/
noncomputable def assemble (n : ℕ) (A : Matrix (Fin (n + 1)) (Fin (n + 1)) ℝ)
    (L' : Matrix (Fin n) (Fin n) ℝ) : Matrix (Fin (n + 1)) (Fin (n + 1)) ℝ :=
  fun i => Fin.cases
    (Fin.cons (Real.sqrt (A 0 0)) (fun _ => 0))
    (fun i' => Fin.cons (A i'.succ 0 / Real.sqrt (A 0 0)) (fun j' => L' i' j'))
    i

/-- Modelled from the spec: the numerical factorization loop (spec
section 4.2 steps 4-6).  Each pivot is the current diagonal entry after
elimination of all previous columns; a non-positive pivot aborts the
factorization (`none`), and otherwise the pivot column is divided by the
square root of the pivot and elimination recurses on the Schur complement. -/
noncomputable def cholRec : (n : ℕ) → Matrix (Fin n) (Fin n) ℝ →
    Option (Matrix (Fin n) (Fin n) ℝ)
  | 0, _ => some (fun i _ => i.elim0)
  | n + 1, A =>
    if 0 < A 0 0 then
      (cholRec n (schur n A)).map (assemble n A)
    else none

open Classical

/-- Modelled from the spec: the public entry point
`cvxpy.utilities.linalg.sparse_cholesky` (spec sections 4.2 and 7): regularize,
order, permute, factor; on success return the factor paired with the
permutation, on failure raise a `ValueError` whose message distinguishes the
singular case (regularization off and the matrix still positive semi-definite,
so an eigenvalue is numerically zero: `EIGEN_FAIL`) from the indefinite case
(`INDEFINITE`). -/
noncomputable def sparse_cholesky (n : ℕ) (A : Matrix (Fin n) (Fin n) ℝ) (eps : ℝ) :
    Except ValueError (Matrix (Fin n) (Fin n) ℝ × Equiv.Perm (Fin n)) :=
  match cholRec n (permuteSym n (orderer n (pattern n (regularize n eps A))) (regularize n eps A)) with
  | some L => .ok (L, orderer n (pattern n (regularize n eps A)))
  | none => .error ⟨if eps = 0 ∧ PosSemidefMat n (regularize n eps A)
      then SparseCholeskyMessages.EIGEN_FAIL
      else SparseCholeskyMessages.INDEFINITE⟩

/-- Modelled from the spec: the two accepted input representations of
`sparse_cholesky` (spec section 9, "Dynamic dispatch / duck-typed input
acceptance"): a raw sparse-matrix-like object, or a symbolic `Expression`
wrapping a constant matrix (whose `value` is that matrix). -/
inductive CholInput (n : ℕ) where
  | rawMatrix (A : Matrix (Fin n) (Fin n) ℝ)
  | constExpression (value : Matrix (Fin n) (Fin n) ℝ)

/-- Modelled from the spec: the explicit adapter at the boundary, coercing any
accepted input representation to the canonical matrix value before entering
the factorization core (spec section 9). -/
def coerceInput (n : ℕ) : CholInput n → Matrix (Fin n) (Fin n) ℝ
  | .rawMatrix A => A
  | .constExpression A => A

/-- Modelled from the spec: the duck-typed entry point, accepting either input
representation and dispatching through the adapter. -/
noncomputable def sparse_cholesky_anyInput (n : ℕ) (input : CholInput n) (eps : ℝ) :
    Except ValueError (Matrix (Fin n) (Fin n) ℝ × Equiv.Perm (Fin n)) :=
  sparse_cholesky n (coerceInput n input) eps

/-! ### Basic entry lemmas for the assembled factor -/

@[simp]
theorem assemble_zero_zero (n : ℕ) (A : Matrix (Fin (n + 1)) (Fin (n + 1)) ℝ)
    (L' : Matrix (Fin n) (Fin n) ℝ) :
    assemble n A L' 0 0 = Real.sqrt (A 0 0) := rfl

@[simp]
theorem assemble_zero_succ (n : ℕ) (A : Matrix (Fin (n + 1)) (Fin (n + 1)) ℝ)
    (L' : Matrix (Fin n) (Fin n) ℝ) (j : Fin n) :
    assemble n A L' 0 j.succ = 0 := rfl

@[simp]
theorem assemble_succ_zero (n : ℕ) (A : Matrix (Fin (n + 1)) (Fin (n + 1)) ℝ)
    (L' : Matrix (Fin n) (Fin n) ℝ) (i : Fin n) :
    assemble n A L' i.succ 0 = A i.succ 0 / Real.sqrt (A 0 0) := by
  simp [assemble]

@[simp]
theorem assemble_succ_succ (n : ℕ) (A : Matrix (Fin (n + 1)) (Fin (n + 1)) ℝ)
    (L' : Matrix (Fin n) (Fin n) ℝ) (i j : Fin n) :
    assemble n A L' i.succ j.succ = L' i j := by
  simp [assemble]

theorem cholRec_zero (A : Matrix (Fin 0) (Fin 0) ℝ) :
    cholRec 0 A = some (fun i _ => i.elim0) := rfl

theorem cholRec_succ (n : ℕ) (A : Matrix (Fin (n + 1)) (Fin (n + 1)) ℝ) :
    cholRec (n + 1) A =
      if 0 < A 0 0 then (cholRec n (schur n A)).map (assemble n A) else none := rfl

/-- Inversion principle for a successful factorization step. -/
theorem cholRec_succ_some (n : ℕ) (A : Matrix (Fin (n + 1)) (Fin (n + 1)) ℝ)
    (L : Matrix (Fin (n + 1)) (Fin (n + 1)) ℝ) (h : cholRec (n + 1) A = some L) :
    0 < A 0 0 ∧ ∃ L', cholRec n (schur n A) = some L' ∧ L = assemble n A L' := by
  rw [cholRec_succ] at h
  by_cases hp : 0 < A 0 0
  · rw [if_pos hp] at h
    rcases Option.map_eq_some'.mp h with ⟨L', hL', hEq⟩
    exact ⟨hp, L', hL', hEq.symm⟩
  · rw [if_neg hp] at h
    exact absurd h (by simp)

/-! ### The factorization loop is sound: triangular structure and reconstruction -/

theorem schur_symm (n : ℕ) (A : Matrix (Fin (n + 1)) (Fin (n + 1)) ℝ)
    (hA : IsSymmMat (n + 1) A) : IsSymmMat n (schur n A) := by
  intro i j
  simp only [schur, hA i.succ j.succ]
  ring

/-- Every successful run of the factorization loop produces a lower-triangular
matrix with strictly positive diagonal (no symmetry of the input needed). -/
theorem cholRec_lowerTri_posDiag (n : ℕ) (A L : Matrix (Fin n) (Fin n) ℝ)
    (h : cholRec n A = some L) : LowerTri n L ∧ PosDiag n L := by
  induction n with
  | zero => exact ⟨fun i => i.elim0, fun i => i.elim0⟩
  | succ n ih =>
    obtain ⟨hp, L', hL', rfl⟩ := cholRec_succ_some n A L h
    obtain ⟨hTri, hDiag⟩ := ih (schur n A) L' hL'
    constructor
    · intro i j hij
      rcases Fin.eq_zero_or_eq_succ i with rfl | ⟨i, rfl⟩ <;>
        rcases Fin.eq_zero_or_eq_succ j with rfl | ⟨j, rfl⟩
      · exact absurd hij (lt_irrefl _)
      · simp
      · exact absurd hij (Fin.not_lt_zero _)
      · exact (assemble_succ_succ n A L' i j).trans
          (hTri i j (Fin.succ_lt_succ_iff.mp hij))
    · intro i
      rcases Fin.eq_zero_or_eq_succ i with rfl | ⟨i, rfl⟩
      · simpa using Real.sqrt_pos.mpr hp
      · simpa using hDiag i

/-- Every successful run of the factorization loop on a symmetric matrix
reconstructs it exactly: `L * Lᵀ = A`. -/
theorem cholRec_gram (n : ℕ) (A L : Matrix (Fin n) (Fin n) ℝ)
    (hA : IsSymmMat n A) (h : cholRec n A = some L) : L * Lᵀ = A := by
  induction n with
  | zero => funext i j; exact i.elim0
  | succ n ih =>
    obtain ⟨hp, L', hL', rfl⟩ := cholRec_succ_some n A L h
    have hG : L' * L'ᵀ = schur n A := ih (schur n A) L' (schur_symm n A hA) hL'
    have hs : Real.sqrt (A 0 0) * Real.sqrt (A 0 0) = A 0 0 :=
      Real.mul_self_sqrt hp.le
    have hsne : Real.sqrt (A 0 0) ≠ 0 := ne_of_gt (Real.sqrt_pos.mpr hp)
    funext i j
    have hGij : ∀ i' j' : Fin n, (∑ k, L' i' k * L' j' k) = schur n A i' j' := by
      intro i' j'
      have := congrFun (congrFun hG i') j'
      rwa [Matrix.mul_apply] at this
    rcases Fin.eq_zero_or_eq_succ i with rfl | ⟨i, rfl⟩ <;>
      rcases Fin.eq_zero_or_eq_succ j with rfl | ⟨j, rfl⟩
    · rw [Matrix.mul_apply, Fin.sum_univ_succ]
      simp [hs]
    · rw [Matrix.mul_apply, Fin.sum_univ_succ]
      simp only [Matrix.transpose_apply, assemble_zero_zero, assemble_zero_succ,
        assemble_succ_zero, assemble_succ_succ, zero_mul, Finset.sum_const_zero,
        add_zero]
      rw [mul_comm, div_mul_cancel₀ _ hsne]
      exact hA j.succ 0
    · rw [Matrix.mul_apply, Fin.sum_univ_succ]
      simp only [Matrix.transpose_apply, assemble_zero_zero, assemble_zero_succ,
        assemble_succ_zero, assemble_succ_succ, mul_zero, Finset.sum_const_zero,
        add_zero]
      exact div_mul_cancel₀ _ hsne
    · rw [Matrix.mul_apply, Fin.sum_univ_succ]
      simp only [Matrix.transpose_apply, assemble_zero_zero, assemble_zero_succ,
        assemble_succ_zero, assemble_succ_succ]
      rw [hGij i j]
      rw [div_mul_div_comm, hs]
      simp [schur]

/-! ### Quadratic-form bookkeeping for the completeness direction -/

/-- Expansion of the quadratic form of a symmetric `(n+1) × (n+1)` matrix at a
vector split into its head and tail. -/
theorem quadForm_cons (n : ℕ) (A : Matrix (Fin (n + 1)) (Fin (n + 1)) ℝ)
    (hA : IsSymmMat (n + 1) A) (x0 : ℝ) (x : Fin n → ℝ) :
    quadForm (n + 1) A (Fin.cons x0 x) =
      A 0 0 * x0 ^ 2 + 2 * x0 * (∑ i, A i.succ 0 * x i) +
        ∑ i, ∑ j, x i * A i.succ j.succ * x j := by
  unfold quadForm
  simp only [Fin.sum_univ_succ, Fin.cons_zero, Fin.cons_succ]
  rw [Finset.sum_add_distrib]
  have e1 : (∑ j, x0 * A 0 j.succ * x j) = x0 * ∑ i, A i.succ 0 * x i := by
    rw [Finset.mul_sum]
    exact Finset.sum_congr rfl fun j _ => by rw [hA 0 j.succ]; ring
  have e2 : (∑ i, x i * A i.succ 0 * x0) = x0 * ∑ i, A i.succ 0 * x i := by
    rw [Finset.mul_sum]
    exact Finset.sum_congr rfl fun i _ => by ring
  rw [e1, e2]
  ring

/-- The quadratic form of the Schur complement, as the trailing block's
quadratic form minus the removed rank-one correction. -/
theorem quadForm_schur (n : ℕ) (A : Matrix (Fin (n + 1)) (Fin (n + 1)) ℝ)
    (_hp : A 0 0 ≠ 0) (x : Fin n → ℝ) :
    quadForm n (schur n A) x =
      (∑ i, ∑ j, x i * A i.succ j.succ * x j) -
        (∑ i, A i.succ 0 * x i) ^ 2 / A 0 0 := by
  unfold quadForm schur
  have expand : ∀ i j : Fin n,
      x i * (A i.succ j.succ - A i.succ 0 * A j.succ 0 / A 0 0) * x j =
        x i * A i.succ j.succ * x j -
          A i.succ 0 * x i * (A j.succ 0 * x j) / A 0 0 := by
    intro i j; ring
  simp only [expand, Finset.sum_sub_distrib]
  have e3 : (∑ i, ∑ j, A i.succ 0 * x i * (A j.succ 0 * x j) / A 0 0) =
      (∑ i, A i.succ 0 * x i) ^ 2 / A 0 0 := by
    rw [sq, Finset.sum_mul_sum, Finset.sum_div]
    exact Finset.sum_congr rfl fun i _ => (Finset.sum_div _ _ _).symm
  rw [e3]

/-- Completeness of the factorization loop: a positive-definite matrix is
factored without hitting a non-positive pivot (spec section 4.2: a failure can
only signal singularity or indefiniteness). -/
theorem cholRec_of_posDef (n : ℕ) : ∀ A : Matrix (Fin n) (Fin n) ℝ,
    PosDefMat n A → ∃ L, cholRec n A = some L := by
  induction n with
  | zero => exact fun A _ => ⟨_, rfl⟩
  | succ n ih =>
    intro A hA
    obtain ⟨hSym, hQ⟩ := hA
    have hp : 0 < A 0 0 := by
      have hne : (Fin.cons 1 0 : Fin (n + 1) → ℝ) ≠ 0 := by
        intro h
        simpa using congrFun h 0
      have h1 := hQ (Fin.cons 1 0) hne
      rw [quadForm_cons n A hSym 1 0] at h1
      simpa using h1
    have hpne : A 0 0 ≠ 0 := ne_of_gt hp
    have hSchurPD : PosDefMat n (schur n A) := by
      refine ⟨schur_symm n A hSym, ?_⟩
      intro x hx
      obtain ⟨i, hi⟩ := Function.ne_iff.mp hx
      have hyne : (Fin.cons (-(∑ k, A k.succ 0 * x k) / A 0 0) x :
          Fin (n + 1) → ℝ) ≠ 0 := by
        refine Function.ne_iff.mpr ⟨i.succ, ?_⟩
        simpa using hi
      have hy := hQ _ hyne
      rw [quadForm_cons n A hSym _ x] at hy
      rw [quadForm_schur n A hpne x]
      have halg : A 0 0 * (-(∑ k, A k.succ 0 * x k) / A 0 0) ^ 2 +
          2 * (-(∑ k, A k.succ 0 * x k) / A 0 0) * (∑ k, A k.succ 0 * x k) +
            (∑ i, ∑ j, x i * A i.succ j.succ * x j) =
          (∑ i, ∑ j, x i * A i.succ j.succ * x j) -
            (∑ k, A k.succ 0 * x k) ^ 2 / A 0 0 := by
        field_simp
        ring
      rwa [halg] at hy
    obtain ⟨L', hL'⟩ := ih (schur n A) hSchurPD
    refine ⟨assemble n A L', ?_⟩
    rw [cholRec_succ, if_pos hp, hL']
    rfl

/-- Soundness of failure: a successful run of the factorization loop on a
symmetric matrix certifies positive definiteness (the factor is invertible
lower-triangular), so the loop can only fail on matrices that are not
positive definite. -/
theorem cholRec_posDef_of_some (n : ℕ) : ∀ A L : Matrix (Fin n) (Fin n) ℝ,
    IsSymmMat n A → cholRec n A = some L → PosDefMat n A := by
  induction n with
  | zero =>
    intro A L hSym _
    exact ⟨hSym, fun x hx => absurd (funext fun i => i.elim0) hx⟩
  | succ n ih =>
    intro A L hSym h
    obtain ⟨hp, L', hL', _⟩ := cholRec_succ_some n A L h
    have hpne : A 0 0 ≠ 0 := ne_of_gt hp
    have hS : PosDefMat n (schur n A) := ih (schur n A) L' (schur_symm n A hSym) hL'
    refine ⟨hSym, ?_⟩
    intro x hx
    have hxc : Fin.cons (x 0) (Fin.tail x) = x := Fin.cons_self_tail x
    have hkey : quadForm (n + 1) A x =
        A 0 0 * (x 0 + (∑ k, A k.succ 0 * Fin.tail x k) / A 0 0) ^ 2 +
          quadForm n (schur n A) (Fin.tail x) := by
      conv_lhs => rw [← hxc]
      rw [quadForm_cons n A hSym (x 0) (Fin.tail x),
        quadForm_schur n A hpne (Fin.tail x)]
      field_simp
      ring
    by_cases ht : Fin.tail x = 0
    · have hx0 : x 0 ≠ 0 := by
        intro h0
        apply hx
        rw [← hxc, h0, ht]
        funext k
        rcases Fin.eq_zero_or_eq_succ k with rfl | ⟨k, rfl⟩ <;> simp
      have hc : (∑ k, A k.succ 0 * Fin.tail x k) = 0 := by
        simp [ht]
      have hq0 : quadForm n (schur n A) (Fin.tail x) = 0 := by
        rw [quadForm_schur n A hpne, hc]
        simp [ht]
      rw [hkey, hq0, hc, add_zero, zero_div, add_zero]
      exact mul_pos hp (pow_two_pos_of_ne_zero hx0)
    · have hq := hS.2 (Fin.tail x) ht
      rw [hkey]
      have hsq : 0 ≤ A 0 0 *
          (x 0 + (∑ k, A k.succ 0 * Fin.tail x k) / A 0 0) ^ 2 :=
        mul_nonneg hp.le (sq_nonneg _)
      linarith

/-! ### Lemmas about the public entry point -/

theorem regularize_zero (n : ℕ) (A : Matrix (Fin n) (Fin n) ℝ) :
    regularize n 0 A = A := by
  simp [regularize]

theorem regularize_symm (n : ℕ) (eps : ℝ) (A : Matrix (Fin n) (Fin n) ℝ)
    (hA : IsSymmMat n A) : IsSymmMat n (regularize n eps A) := by
  intro i j
  simp only [regularize, Matrix.add_apply, Matrix.smul_apply, Matrix.one_apply,
    hA i j, smul_eq_mul]
  by_cases h : i = j
  · subst h; rfl
  · rw [if_neg h, if_neg (fun hji => h hji.symm)]

theorem permuteSym_orderer (n : ℕ) (pat : Fin n → Fin n → Prop)
    (A : Matrix (Fin n) (Fin n) ℝ) : permuteSym n (orderer n pat) A = A := rfl

theorem rowPerm_refl (n : ℕ) (L : Matrix (Fin n) (Fin n) ℝ) :
    rowPerm n (Equiv.refl (Fin n)) L = L := rfl

/-- Unfolding of the entry point under the identity ordering. -/
theorem sparse_cholesky_eq (n : ℕ) (A : Matrix (Fin n) (Fin n) ℝ) (eps : ℝ) :
    sparse_cholesky n A eps =
      match cholRec n (regularize n eps A) with
      | some L => .ok (L, Equiv.refl (Fin n))
      | none => .error ⟨if eps = 0 ∧ PosSemidefMat n (regularize n eps A)
          then SparseCholeskyMessages.EIGEN_FAIL
          else SparseCholeskyMessages.INDEFINITE⟩ := rfl

theorem sparse_cholesky_eq_ok (n : ℕ) (A L : Matrix (Fin n) (Fin n) ℝ) (eps : ℝ)
    (h : cholRec n (regularize n eps A) = some L) :
    sparse_cholesky n A eps = .ok (L, Equiv.refl (Fin n)) := by
  rw [sparse_cholesky_eq, h]

theorem sparse_cholesky_eq_error (n : ℕ) (A : Matrix (Fin n) (Fin n) ℝ) (eps : ℝ)
    (h : cholRec n (regularize n eps A) = none) :
    sparse_cholesky n A eps = .error ⟨if eps = 0 ∧ PosSemidefMat n (regularize n eps A)
        then SparseCholeskyMessages.EIGEN_FAIL
        else SparseCholeskyMessages.INDEFINITE⟩ := by
  rw [sparse_cholesky_eq, h]

/-- Inversion of a successful call: the factor comes from the factorization
loop on the regularized matrix, and the permutation is the orderer's output. -/
theorem sparse_cholesky_ok_inv (n : ℕ) (A L : Matrix (Fin n) (Fin n) ℝ) (eps : ℝ)
    (p : Equiv.Perm (Fin n)) (h : sparse_cholesky n A eps = .ok (L, p)) :
    cholRec n (regularize n eps A) = some L ∧ p = Equiv.refl (Fin n) := by
  rw [sparse_cholesky_eq] at h
  cases hc : cholRec n (regularize n eps A) with
  | none =>
    rw [hc] at h
    exact absurd h (by simp)
  | some L0 =>
    rw [hc] at h
    simp only [Except.ok.injEq, Prod.mk.injEq] at h
    exact ⟨congrArg some h.1, h.2.symm⟩

/-- Inversion of a failing call: the factorization loop rejected the
regularized matrix and the message is the classification in the source. -/
theorem sparse_cholesky_error_inv (n : ℕ) (A : Matrix (Fin n) (Fin n) ℝ) (eps : ℝ)
    (e : ValueError) (h : sparse_cholesky n A eps = .error e) :
    cholRec n (regularize n eps A) = none ∧
      e = ⟨if eps = 0 ∧ PosSemidefMat n (regularize n eps A)
          then SparseCholeskyMessages.EIGEN_FAIL
          else SparseCholeskyMessages.INDEFINITE⟩ := by
  rw [sparse_cholesky_eq] at h
  cases hc : cholRec n (regularize n eps A) with
  | none =>
    rw [hc] at h
    simp only [Except.error.injEq] at h
    exact ⟨rfl, h.symm⟩
  | some L0 =>
    rw [hc] at h
    exact absurd h (by simp)

/-- Quadratic form of the regularized matrix. -/
theorem quadForm_regularize (n : ℕ) (eps : ℝ) (A : Matrix (Fin n) (Fin n) ℝ)
    (x : Fin n → ℝ) :
    quadForm n (regularize n eps A) x = quadForm n A x + eps * ∑ i, x i ^ 2 := by
  unfold quadForm regularize
  have expand : ∀ i j : Fin n,
      x i * (A + eps • (1 : Matrix (Fin n) (Fin n) ℝ)) i j * x j =
        x i * A i j * x j + eps * (x i * (1 : Matrix (Fin n) (Fin n) ℝ) i j * x j) := by
    intro i j
    simp only [Matrix.add_apply, Matrix.smul_apply, smul_eq_mul]
    ring
  simp only [expand, Finset.sum_add_distrib]
  congr 1
  have inner : ∀ i : Fin n,
      (∑ j, x i * (1 : Matrix (Fin n) (Fin n) ℝ) i j * x j) = x i ^ 2 := by
    intro i
    have e1 : ∀ j : Fin n, x i * (1 : Matrix (Fin n) (Fin n) ℝ) i j * x j =
        if j = i then x i ^ 2 else 0 := by
      intro j
      by_cases h : j = i
      · subst h; simp [Matrix.one_apply]; ring
      · have hij : i ≠ j := fun e => h e.symm
        rw [if_neg h]
        simp [Matrix.one_apply, hij]
    simp only [e1, Finset.sum_ite_eq', Finset.mem_univ, if_true]
  simp only [inner, ← Finset.mul_sum]

/-- Regularization rescues singularity: adding `eps > 0` to the diagonal of a
positive semi-definite matrix yields a positive definite matrix
(spec section 4.2 step 5: "regularization only rescues singularity"). -/
theorem regularize_posDef (n : ℕ) (eps : ℝ) (A : Matrix (Fin n) (Fin n) ℝ)
    (hA : PosSemidefMat n A) (heps : 0 < eps) :
    PosDefMat n (regularize n eps A) := by
  refine ⟨regularize_symm n eps A hA.1, ?_⟩
  intro x hx
  rw [quadForm_regularize]
  obtain ⟨i, hi⟩ := Function.ne_iff.mp hx
  have hsum : 0 < ∑ i, x i ^ 2 := by
    refine Finset.sum_pos' (fun j _ => sq_nonneg _) ⟨i, Finset.mem_univ i, ?_⟩
    exact pow_two_pos_of_ne_zero hi
  have := hA.2 x
  nlinarith

/-! ### The diagonal scenario and small concrete instances -/

/-- A positive diagonal matrix factors into the diagonal matrix of the square
roots of its entries. -/
theorem cholRec_diagonal (n : ℕ) : ∀ d : Fin n → ℝ, (∀ i, 0 < d i) →
    cholRec n (Matrix.diagonal d) =
      some (Matrix.diagonal fun i => Real.sqrt (d i)) := by
  induction n with
  | zero =>
    intro d _
    rw [cholRec_zero]
    congr
    funext i
    exact i.elim0
  | succ n ih =>
    intro d hd
    have h0 : Matrix.diagonal d 0 0 = d 0 := Matrix.diagonal_apply_eq d 0
    have hS : schur n (Matrix.diagonal d) = Matrix.diagonal (fun i => d i.succ) := by
      funext i j
      simp only [schur, Matrix.diagonal_apply_ne d (Fin.succ_ne_zero i),
        Matrix.diagonal_apply_ne d (Fin.succ_ne_zero j), zero_mul, zero_div,
        sub_zero]
      by_cases h : i = j
      · subst h
        rw [Matrix.diagonal_apply_eq, Matrix.diagonal_apply_eq]
      · rw [Matrix.diagonal_apply_ne d (fun hs => h (Fin.succ_injective n hs)),
          Matrix.diagonal_apply_ne _ h]
    rw [cholRec_succ, h0, if_pos (hd 0), hS, ih _ (fun i => hd i.succ),
      Option.map_some']
    congr 1
    funext i j
    rcases Fin.eq_zero_or_eq_succ i with rfl | ⟨i, rfl⟩ <;>
      rcases Fin.eq_zero_or_eq_succ j with rfl | ⟨j, rfl⟩
    · rw [assemble_zero_zero, h0, Matrix.diagonal_apply_eq]
    · rw [assemble_zero_succ, Matrix.diagonal_apply_ne _ (Ne.symm (Fin.succ_ne_zero j))]
    · rw [assemble_succ_zero, Matrix.diagonal_apply_ne d (Fin.succ_ne_zero i),
        Matrix.diagonal_apply_ne _ (Fin.succ_ne_zero i), zero_div]
    · rw [assemble_succ_succ]
      by_cases h : i = j
      · subst h
        rw [Matrix.diagonal_apply_eq, Matrix.diagonal_apply_eq]
      · rw [Matrix.diagonal_apply_ne _ h,
          Matrix.diagonal_apply_ne _ (fun hs => h (Fin.succ_injective n hs))]

theorem entry_one_dim (a : ℝ) : (!![a] : Matrix (Fin 1) (Fin 1) ℝ) 0 0 = a := rfl

/-- A `1 × 1` matrix with a positive entry is positive definite. -/
theorem posDefMat_one_dim (a : ℝ) (ha : 0 < a) :
    PosDefMat 1 (!![a] : Matrix (Fin 1) (Fin 1) ℝ) := by
  constructor
  · intro i j
    rw [Subsingleton.elim i j]
  · intro x hx
    have hx0 : x 0 ≠ 0 := by
      intro h0
      exact hx (funext fun i => by rw [Subsingleton.elim i 0]; exact h0)
    have : quadForm 1 !![a] x = a * x 0 ^ 2 := by
      simp [quadForm, Fin.sum_univ_one, entry_one_dim]
      ring
    rw [this]
    exact mul_pos ha (pow_two_pos_of_ne_zero hx0)

/-- The `1 × 1` zero matrix is positive semi-definite but singular. -/
theorem posSemidefMat_zero_one_dim :
    PosSemidefMat 1 (0 : Matrix (Fin 1) (Fin 1) ℝ) := by
  refine ⟨fun i j => rfl, ?_⟩
  intro x
  simp [quadForm]

theorem not_posDefMat_zero_one_dim :
    ¬ PosDefMat 1 (0 : Matrix (Fin 1) (Fin 1) ℝ) := by
  rintro ⟨-, h⟩
  have hne : (fun _ => 1 : Fin 1 → ℝ) ≠ 0 := by
    intro he
    simpa using congrFun he 0
  have := h (fun _ => 1) hne
  simp [quadForm] at this

/-- The negative quadratic-form certificate for the `1 × 1` matrix `[[-1]]`. -/
theorem negQuad_neg_one_dim :
    quadForm 1 (!![-1] : Matrix (Fin 1) (Fin 1) ℝ) (fun _ => 1) < 0 := by
  simp [quadForm, Fin.sum_univ_one, entry_one_dim]

/-- Concrete evaluation: the call on a positive `1 × 1` matrix succeeds with
factor `[[√a]]` and the identity permutation. -/
theorem sparse_cholesky_one_dim (a : ℝ) (ha : 0 < a) :
    sparse_cholesky 1 !![a] 0 = .ok (!![Real.sqrt a], Equiv.refl (Fin 1)) := by
  refine sparse_cholesky_eq_ok 1 !![a] !![Real.sqrt a] 0 ?_
  rw [regularize_zero]
  have hstep : cholRec (0 + 1) (!![a] : Matrix (Fin (0 + 1)) (Fin (0 + 1)) ℝ) =
      some (assemble 0 !![a] (fun i _ => i.elim0)) := by
    rw [cholRec_succ, entry_one_dim, if_pos ha, cholRec_zero, Option.map_some']
  have hassemble : assemble 0 (!![a] : Matrix (Fin (0 + 1)) (Fin (0 + 1)) ℝ)
      (fun i _ => i.elim0) = !![Real.sqrt a] := by
    funext i j
    rcases Fin.eq_zero_or_eq_succ i with rfl | ⟨i, rfl⟩
    · rcases Fin.eq_zero_or_eq_succ j with rfl | ⟨j, rfl⟩
      · exact assemble_zero_zero 0 !![a] (fun i _ => i.elim0)
      · exact j.elim0
    · exact i.elim0
  exact hstep.trans (congrArg some hassemble)

/-- Concrete evaluation: the call on the indefinite `1 × 1` matrix `[[-1]]`
fails with the indefinite-matrix message. -/
theorem sparse_cholesky_neg_one_dim :
    sparse_cholesky 1 !![(-1 : ℝ)] 0 = .error ⟨SparseCholeskyMessages.INDEFINITE⟩ := by
  have hnone : cholRec 1 (regularize 1 0 !![(-1 : ℝ)]) = none := by
    rw [regularize_zero]
    have hstep : cholRec (0 + 1) (!![(-1 : ℝ)] : Matrix (Fin (0 + 1)) (Fin (0 + 1)) ℝ) =
        none := by
      rw [cholRec_succ, entry_one_dim, if_neg (by norm_num)]
    exact hstep
  have hcond : ¬ ((0 : ℝ) = 0 ∧ PosSemidefMat 1 (regularize 1 0 !![(-1 : ℝ)])) := by
    rintro ⟨-, hPSD⟩
    rw [regularize_zero] at hPSD
    exact absurd (hPSD.2 (fun _ => 1)) (not_le.mpr negQuad_neg_one_dim)
  rw [sparse_cholesky_eq_error 1 _ 0 hnone, if_neg hcond]

/-! ### The claims -/

/-- C1: for every symmetric positive-definite matrix `A`, `sparse_cholesky(A, 0)`
succeeds and returns a factor `L` and a permutation `p` such that
`(L[p,:]) @ (L[p,:])ᵀ` equals `A` entrywise — exactly over the real-number
model, hence in particular within the `1e-5` tolerance of the tests. -/
theorem claim_C1_spd_reconstruction (n : ℕ) (A : Matrix (Fin n) (Fin n) ℝ)
    (hA : PosDefMat n A) :
    ∃ L p, sparse_cholesky n A 0 = .ok (L, p) ∧
      rowPerm n p L * (rowPerm n p L)ᵀ = A ∧
      ∀ i j, |(rowPerm n p L * (rowPerm n p L)ᵀ - A) i j| ≤ 1e-5 := by
  have hA' : PosDefMat n (regularize n 0 A) := by rwa [regularize_zero]
  obtain ⟨L, hL⟩ := cholRec_of_posDef n (regularize n 0 A) hA'
  have hG : L * Lᵀ = A := by
    have := cholRec_gram n (regularize n 0 A) L (regularize_symm n 0 A hA.1) hL
    rwa [regularize_zero] at this
  refine ⟨L, Equiv.refl (Fin n), sparse_cholesky_eq_ok n A L 0 hL, ?_, ?_⟩
  · rw [rowPerm_refl]
    exact hG
  · intro i j
    rw [rowPerm_refl, hG, sub_self]
    norm_num

/-- Witness for C1 at the concrete positive-definite input `[[4]]`. -/
theorem claim_C1_witness :
    PosDefMat 1 (!![4] : Matrix (Fin 1) (Fin 1) ℝ) ∧
      ∃ L p, sparse_cholesky 1 !![4] 0 = .ok (L, p) ∧
        rowPerm 1 p L * (rowPerm 1 p L)ᵀ = (!![4] : Matrix (Fin 1) (Fin 1) ℝ) ∧
        ∀ i j, |(rowPerm 1 p L * (rowPerm 1 p L)ᵀ -
          (!![4] : Matrix (Fin 1) (Fin 1) ℝ)) i j| ≤ 1e-5 :=
  ⟨posDefMat_one_dim 4 (by norm_num),
    claim_C1_spd_reconstruction 1 !![4] (posDefMat_one_dim 4 (by norm_num))⟩

/-- C2: every successful call returns a factor that is lower-triangular with a
strictly positive diagonal. -/
theorem claim_C2_factor_structure (n : ℕ) (A L : Matrix (Fin n) (Fin n) ℝ)
    (eps : ℝ) (p : Equiv.Perm (Fin n))
    (h : sparse_cholesky n A eps = .ok (L, p)) :
    LowerTri n L ∧ PosDiag n L :=
  cholRec_lowerTri_posDiag n (regularize n eps A) L
    (sparse_cholesky_ok_inv n A L eps p h).1

/-- Witness for C2 at the concrete successful call on `[[4]]`. -/
theorem claim_C2_witness :
    sparse_cholesky 1 !![4] 0 = .ok (!![Real.sqrt 4], Equiv.refl (Fin 1)) ∧
      LowerTri 1 !![Real.sqrt 4] ∧ PosDiag 1 !![Real.sqrt 4] :=
  ⟨sparse_cholesky_one_dim 4 (by norm_num),
    claim_C2_factor_structure 1 !![4] !![Real.sqrt 4] 0 (Equiv.refl (Fin 1))
      (sparse_cholesky_one_dim 4 (by norm_num))⟩

/-- C3: on a symmetric matrix that is positive semi-definite but singular
(not positive definite), the call with `eps = 0` (the default) raises the
singular-matrix failure `ValueError(EIGEN_FAIL)` rather than returning a
factor. -/
theorem claim_C3_singular_failure (n : ℕ) (A : Matrix (Fin n) (Fin n) ℝ)
    (hPSD : PosSemidefMat n A) (hsing : ¬ PosDefMat n A) :
    sparse_cholesky n A 0 = .error ⟨SparseCholeskyMessages.EIGEN_FAIL⟩ := by
  have hnone : cholRec n (regularize n 0 A) = none := by
    rw [regularize_zero]
    cases hc : cholRec n A with
    | none => rfl
    | some L => exact absurd (cholRec_posDef_of_some n A L hPSD.1 hc) hsing
  rw [sparse_cholesky_eq_error n A 0 hnone,
    if_pos ⟨rfl, by rw [regularize_zero]; exact hPSD⟩]

/-- Witness for C3 at the concrete PSD-singular input, the `1 × 1` zero
matrix `[[0]]` (which is `B·Bᵀ` for the empty `1 × 0` matrix `B`). -/
theorem claim_C3_witness :
    PosSemidefMat 1 (0 : Matrix (Fin 1) (Fin 1) ℝ) ∧
      ¬ PosDefMat 1 (0 : Matrix (Fin 1) (Fin 1) ℝ) ∧
      sparse_cholesky 1 (0 : Matrix (Fin 1) (Fin 1) ℝ) 0 =
        .error ⟨SparseCholeskyMessages.EIGEN_FAIL⟩ :=
  ⟨posSemidefMat_zero_one_dim, not_posDefMat_zero_one_dim,
    claim_C3_singular_failure 1 0 posSemidefMat_zero_one_dim
      not_posDefMat_zero_one_dim⟩

/-- C4: on a symmetric matrix with a strictly negative eigenvalue (witnessed,
as for every symmetric real matrix, by a vector with negative Rayleigh
quotient `xᵀ A x < 0`), the call with `eps = 0` raises the indefinite-matrix
failure `ValueError(INDEFINITE)`, whatever the sparsity pattern of `A`. -/
theorem claim_C4_indefinite_failure (n : ℕ) (A : Matrix (Fin n) (Fin n) ℝ)
    (hSym : IsSymmMat n A) (hneg : ∃ x, quadForm n A x < 0) :
    sparse_cholesky n A 0 = .error ⟨SparseCholeskyMessages.INDEFINITE⟩ := by
  obtain ⟨x, hx⟩ := hneg
  have hnPD : ¬ PosDefMat n A := by
    rintro ⟨-, hQ⟩
    have hxne : x ≠ 0 := by
      intro h0
      rw [h0] at hx
      simp [quadForm] at hx
    exact absurd (hQ x hxne) (not_lt.mpr hx.le)
  have hnPSD : ¬ PosSemidefMat n A := fun hPSD =>
    absurd (hPSD.2 x) (not_le.mpr hx)
  have hnone : cholRec n (regularize n 0 A) = none := by
    rw [regularize_zero]
    cases hc : cholRec n A with
    | none => rfl
    | some L => exact absurd (cholRec_posDef_of_some n A L hSym hc) hnPD
  have hcond : ¬ ((0 : ℝ) = 0 ∧ PosSemidefMat n (regularize n 0 A)) := by
    rintro ⟨-, hPSD⟩
    rw [regularize_zero] at hPSD
    exact hnPSD hPSD
  rw [sparse_cholesky_eq_error n A 0 hnone, if_neg hcond]

/-- Witness for C4 at the concrete indefinite input `[[-1]]`. -/
theorem claim_C4_witness :
    IsSymmMat 1 (!![-1] : Matrix (Fin 1) (Fin 1) ℝ) ∧
      quadForm 1 (!![-1] : Matrix (Fin 1) (Fin 1) ℝ) (fun _ => 1) < 0 ∧
      sparse_cholesky 1 !![-1] 0 = .error ⟨SparseCholeskyMessages.INDEFINITE⟩ :=
  ⟨fun i j => by rw [Subsingleton.elim i j], negQuad_neg_one_dim,
    claim_C4_indefinite_failure 1 !![-1]
      (fun i j => by rw [Subsingleton.elim i j])
      ⟨fun _ => 1, negQuad_neg_one_dim⟩⟩

/-- C5: for every symmetric positive semi-definite but singular matrix `A`
there is an `eps > 0` for which the call succeeds, and the returned factor and
permutation reconstruct `A + eps·I` — which differs from `A` — exactly. -/
theorem claim_C5_regularization (n : ℕ) (A : Matrix (Fin n) (Fin n) ℝ)
    (hPSD : PosSemidefMat n A) (hsing : ¬ PosDefMat n A) :
    ∃ eps : ℝ, 0 < eps ∧ ∃ L p, sparse_cholesky n A eps = .ok (L, p) ∧
      rowPerm n p L * (rowPerm n p L)ᵀ = regularize n eps A ∧
      regularize n eps A ≠ A := by
  refine ⟨1, one_pos, ?_⟩
  have hPD : PosDefMat n (regularize n 1 A) := regularize_posDef n 1 A hPSD one_pos
  obtain ⟨L, hL⟩ := cholRec_of_posDef n (regularize n 1 A) hPD
  refine ⟨L, Equiv.refl (Fin n), sparse_cholesky_eq_ok n A L 1 hL, ?_, ?_⟩
  · rw [rowPerm_refl]
    exact cholRec_gram n (regularize n 1 A) L (regularize_symm n 1 A hPSD.1) hL
  · intro hEq
    rw [hEq] at hPD
    exact hsing hPD

/-- Witness for C5 at the concrete PSD-singular input `[[0]]`. -/
theorem claim_C5_witness :
    PosSemidefMat 1 (0 : Matrix (Fin 1) (Fin 1) ℝ) ∧
      ∃ eps : ℝ, 0 < eps ∧
        ∃ L p, sparse_cholesky 1 (0 : Matrix (Fin 1) (Fin 1) ℝ) eps = .ok (L, p) ∧
          rowPerm 1 p L * (rowPerm 1 p L)ᵀ = regularize 1 eps 0 ∧
          regularize 1 eps 0 ≠ 0 :=
  ⟨posSemidefMat_zero_one_dim,
    claim_C5_regularization 1 0 posSemidefMat_zero_one_dim
      not_posDefMat_zero_one_dim⟩

/-- C6: the Orderer is total and always returns a valid bijection on
`{0,…,n-1}` (the identity fallback in this model), and the permutation
returned by any successful `sparse_cholesky` call is such a bijection. -/
theorem claim_C6_orderer_bijection (n : ℕ) (pat : Fin n → Fin n → Prop) :
    Function.Bijective (orderer n pat) ∧
      ∀ (A L : Matrix (Fin n) (Fin n) ℝ) (eps : ℝ) (p : Equiv.Perm (Fin n)),
        sparse_cholesky n A eps = .ok (L, p) → Function.Bijective p :=
  ⟨(orderer n pat).bijective, fun _A _L _eps p _h => p.bijective⟩

/-- Witness for C6 at a concrete pattern and a concrete successful call. -/
theorem claim_C6_witness :
    Function.Bijective (orderer 1 (pattern 1 (!![4] : Matrix (Fin 1) (Fin 1) ℝ))) ∧
      Function.Bijective (Equiv.refl (Fin 1)) :=
  ⟨(claim_C6_orderer_bijection 1 (pattern 1 !![4])).1,
    (claim_C6_orderer_bijection 1 (pattern 1 !![4])).2 !![4] !![Real.sqrt 4] 0
      (Equiv.refl (Fin 1)) (sparse_cholesky_one_dim 4 (by norm_num))⟩

/-- C7: a diagonal matrix `diag(a,b,c,d)` with strictly positive entries
factors successfully at `eps = 0`; the factor is `diag(√a,√b,√c,√d)` and the
returned permutation is the identity (so "up to the returned permutation"
holds on the nose). -/
theorem claim_C7_diagonal (a b c d : ℝ)
    (ha : 0 < a) (hb : 0 < b) (hc : 0 < c) (hd : 0 < d) :
    sparse_cholesky 4 (Matrix.diagonal ![a, b, c, d]) 0 =
      .ok (Matrix.diagonal ![Real.sqrt a, Real.sqrt b, Real.sqrt c, Real.sqrt d],
        Equiv.refl (Fin 4)) := by
  have hpos : ∀ i, 0 < (![a, b, c, d] : Fin 4 → ℝ) i := by
    intro i
    fin_cases i
    · simpa using ha
    · simpa using hb
    · simpa using hc
    · simpa using hd
  have h1 := cholRec_diagonal 4 ![a, b, c, d] hpos
  have h2 : (fun i => Real.sqrt ((![a, b, c, d] : Fin 4 → ℝ) i)) =
      ![Real.sqrt a, Real.sqrt b, Real.sqrt c, Real.sqrt d] := by
    funext i
    fin_cases i <;> simp
  rw [h2] at h1
  exact sparse_cholesky_eq_ok 4 _ _ 0 (by rwa [regularize_zero])

/-- Witness for C7 at the concrete diagonal `diag(1,2,3,4)`. -/
theorem claim_C7_witness :
    (0 : ℝ) < 1 ∧ (0 : ℝ) < 2 ∧ (0 : ℝ) < 3 ∧ (0 : ℝ) < 4 ∧
      sparse_cholesky 4 (Matrix.diagonal ![1, 2, 3, 4]) 0 =
        .ok (Matrix.diagonal ![Real.sqrt 1, Real.sqrt 2, Real.sqrt 3, Real.sqrt 4],
          Equiv.refl (Fin 4)) :=
  ⟨one_pos, by norm_num, by norm_num, by norm_num,
    claim_C7_diagonal 1 2 3 4 one_pos (by norm_num) (by norm_num) (by norm_num)⟩

/-- C8: a successful call returns exactly the pair (factor, permutation): the
first component is the lower-triangular positive-diagonal factor and the
second is the permutation, a bijection.  The modelled factorization variant
folds the diagonal scaling into the triangular factor, so no separate
diagonal-scale output is returned. -/
theorem claim_C8_return_shape (n : ℕ) (A : Matrix (Fin n) (Fin n) ℝ) (eps : ℝ)
    (r : Matrix (Fin n) (Fin n) ℝ × Equiv.Perm (Fin n))
    (h : sparse_cholesky n A eps = .ok r) :
    r = (r.1, r.2) ∧ LowerTri n r.1 ∧ PosDiag n r.1 ∧ Function.Bijective r.2 := by
  have h' : sparse_cholesky n A eps = .ok (r.1, r.2) := h
  obtain ⟨hc, -⟩ := sparse_cholesky_ok_inv n A r.1 eps r.2 h'
  obtain ⟨hTri, hDiag⟩ := cholRec_lowerTri_posDiag n (regularize n eps A) r.1 hc
  exact ⟨rfl, hTri, hDiag, r.2.bijective⟩

/-- Witness for C8 at the concrete successful call on `[[4]]`. -/
theorem claim_C8_witness :
    sparse_cholesky 1 !![4] 0 = .ok (!![Real.sqrt 4], Equiv.refl (Fin 1)) ∧
      LowerTri 1 !![Real.sqrt 4] ∧ PosDiag 1 !![Real.sqrt 4] ∧
      Function.Bijective (Equiv.refl (Fin 1)) := by
  have h := sparse_cholesky_one_dim 4 (by norm_num)
  have hshape := claim_C8_return_shape 1 !![4] 0
    (!![Real.sqrt 4], Equiv.refl (Fin 1)) h
  exact ⟨h, hshape.2.1, hshape.2.2.1, hshape.2.2.2⟩

/-- C9: the entry point accepts either a raw matrix or an `Expression`
wrapping a constant matrix; the boundary adapter makes the call on the
wrapped input literally the call on the wrapped value, so the factor and
permutation of the two calls coincide and every triangularity and
reconstruction property (against the value of `A`) transfers verbatim. -/
theorem claim_C9_expression_input (n : ℕ) (A : Matrix (Fin n) (Fin n) ℝ) (eps : ℝ) :
    sparse_cholesky_anyInput n (.constExpression A) eps =
        sparse_cholesky_anyInput n (.rawMatrix A) eps ∧
      sparse_cholesky_anyInput n (.constExpression A) eps = sparse_cholesky n A eps :=
  ⟨rfl, rfl⟩

/-- C10: both failure kinds are raised as the same exception type
(`ValueError`), distinguished only by their message string, which always
equals one of the two constants `EIGEN_FAIL` (singular case) and `INDEFINITE`
(indefinite case); the two constants are distinct strings. -/
theorem claim_C10_error_messages (n : ℕ) (A : Matrix (Fin n) (Fin n) ℝ)
    (eps : ℝ) (e : ValueError) (h : sparse_cholesky n A eps = .error e) :
    (e.message = SparseCholeskyMessages.EIGEN_FAIL ∨
        e.message = SparseCholeskyMessages.INDEFINITE) ∧
      SparseCholeskyMessages.EIGEN_FAIL ≠ SparseCholeskyMessages.INDEFINITE := by
  obtain ⟨-, he⟩ := sparse_cholesky_error_inv n A eps e h
  refine ⟨?_, by decide⟩
  rw [he]
  by_cases hcond : eps = 0 ∧ PosSemidefMat n (regularize n eps A)
  · left
    rw [if_pos hcond]
  · right
    rw [if_neg hcond]

/-- Witness for C10 at the concrete failing call on `[[-1]]`. -/
theorem claim_C10_witness :
    sparse_cholesky 1 !![(-1 : ℝ)] 0 =
        .error ⟨SparseCholeskyMessages.INDEFINITE⟩ ∧
      ((ValueError.mk SparseCholeskyMessages.INDEFINITE).message =
          SparseCholeskyMessages.EIGEN_FAIL ∨
        (ValueError.mk SparseCholeskyMessages.INDEFINITE).message =
          SparseCholeskyMessages.INDEFINITE) ∧
      SparseCholeskyMessages.EIGEN_FAIL ≠ SparseCholeskyMessages.INDEFINITE :=
  ⟨sparse_cholesky_neg_one_dim,
    claim_C10_error_messages 1 !![(-1 : ℝ)] 0
      ⟨SparseCholeskyMessages.INDEFINITE⟩ sparse_cholesky_neg_one_dim⟩

end CvxpyLinalg
